import Mathlib

/-!
Verification development for the Thalia terminal Git UI.

Shallow embedding of the two stateful mechanisms of the repository:

* the keybinding resolution pipeline
  (`src/thalia/config.py`: `BindingTypeModel`, `ScreenBindings.validate_bindings`,
  `ScreenBindings.get_bindings`; `src/thalia/binding_loader.py`: `include_bindings`);
* the recent-repository cache
  (`src/thalia/tui/screens/dashboard.py`: `RecentRepos.fetch_recent_repos`,
  `DashboardScreen._open_repo_from_obj`; `src/thalia/tui/screens/dashboard.py`:
  `CloneProgressModal.on_mount`).

Python exceptions are modelled with `Except`; the SQLite `Repositories` table is a
list of rows; filesystem and Git checks are boolean-valued parameters.
-/

/-- The `key` field of `BindingTypeModel` in `config.py`:
`key: str | tuple[str, str] | tuple[str, str, str]`, validated strictly by pydantic. -/
inductive BindKey where
  | single (s : String)
  | pair (a b : String)
  | triple (a b c : String)
deriving DecidableEq, Repr

/-- `config.BindingTypeModel`: one configured keybinding.
`action` defaults to the empty string, `show` defaults to `true`
(`show` is a Lean keyword, hence the trailing underscore). -/
structure BindingTypeModel where
  key : BindKey
  action : String := ""
  show_ : Bool := true
deriving DecidableEq, Repr

/-- `textual.binding.Binding` as produced by `ScreenBindings.get_bindings`:
key, action, description (looked up in the actions registry) and show flag. -/
structure Binding where
  key : String
  action : String
  description : String
  show_ : Bool
deriving DecidableEq, Repr

/-- The exceptions that can escape binding resolution:
`textual.binding.InvalidBinding` (empty key component, carries the offending key
expression), Python `KeyError` on `self._actions[binding.action]`, and Python
`AttributeError` when the settings walk reads `__pydantic_fields__` off a value
that is not a pydantic model. -/
inductive ResolveErr where
  | invalidBinding (key : String)
  | keyError (action : String)
  | attributeError
deriving DecidableEq, Repr

/-- An action registry (`ScreenBindings._actions`): a Python dict from action name
to description, embedded as an association list queried with `List.lookup`. -/
abbrev ActionsMap := List (String × String)

/-- `ScreenBindings.validate_bindings` (config.py): keep exactly the bindings whose
action has an entry in the class's `_actions` registry
(`cls._actions.get_default().get(binding.action) is not None`). -/
def validate_bindings (actions : ActionsMap) (bindings : List BindingTypeModel) :
    List BindingTypeModel :=
  bindings.filter (fun b => (actions.lookup b.action).isSome)

/-- The key expression `_binding.key` built in `get_bindings`: a tuple key is joined
with `","` (`",".join(binding.key)`); a plain string key is used as-is. The
`len(binding.key) not in (2, 3)` check of the source cannot fire here because
`BindKey` only admits tuples of two or three strings, exactly as the pydantic
type annotation guarantees under `strict=True`. -/
def joinKey : BindKey → String
  | .single s => s
  | .pair a b => a ++ "," ++ b
  | .triple a b c => a ++ "," ++ b ++ "," ++ c

/-- Splitting accumulator for `splitOnChar`: the current component is carried in
reverse. Structurally recursive model of Python `str.split(sep)` for a
single-character separator (used with `","` in `get_bindings` and `"."` in
`include_bindings`); on the empty string it yields `[""]`, as in Python. -/
def splitOnCharAux (sep : Char) : List Char → List Char → List String
  | [], cur => [String.mk cur.reverse]
  | c :: rest, cur =>
    if c = sep then String.mk cur.reverse :: splitOnCharAux sep rest []
    else splitOnCharAux sep rest (c :: cur)

/-- Python `str.split(sep)` for a one-character separator. -/
def splitOnChar (sep : Char) (s : String) : List String :=
  splitOnCharAux sep s.toList []

/-- Drop leading whitespace characters. -/
def dropLeadingWs : List Char → List Char
  | [] => []
  | c :: rest => if c.isWhitespace then dropLeadingWs rest else c :: rest

/-- Python `str.strip()` with no argument: remove leading and trailing
whitespace. -/
def pyStrip (s : String) : String :=
  String.mk ((dropLeadingWs (dropLeadingWs s.toList).reverse).reverse)

/-- The per-component key expansion of `get_bindings`:
`if len(key) == 1: key = _character_to_key(key)`. The external textual helper
`_character_to_key` is a parameter `ctk` of the resolution functions. -/
def expandKey (ctk : Char → String) (k : String) : String :=
  match k.toList with
  | [c] => ctk c
  | _ => k

/-- Witness instantiation for the external `textual.keys._character_to_key`:
alphanumeric characters map to themselves, exactly as in textual; other
characters are mapped by textual to unicode names, which no witness here needs,
so they are left at the identity embedding. -/
def character_to_key (c : Char) : String :=
  if c.isAlphanum then String.singleton c else String.singleton c

/-- The inner `for key in _binding.key.split(",")` loop of
`ScreenBindings.get_bindings`, for one `BindingTypeModel`: strip each component,
raise `InvalidBinding` on an empty component, expand single characters, look the
description up in `_actions` (raising `KeyError` if absent) and emit one
`Binding` per component. The Python generator is consumed by
`list(...)` in `include_bindings`, so an exception anywhere discards all
components: the whole computation is an `Except`. -/
def processComponents (ctk : Char → String) (actions : ActionsMap)
    (b : BindingTypeModel) : List String → Except ResolveErr (List Binding)
  | [] => .ok []
  | k :: rest =>
    if pyStrip k = "" then .error (.invalidBinding (joinKey b.key))
    else
      match actions.lookup b.action with
      | none => .error (.keyError b.action)
      | some d =>
        match processComponents ctk actions b rest with
        | .error e => .error e
        | .ok bs => .ok (⟨expandKey ctk (pyStrip k), b.action, d, b.show_⟩ :: bs)

/-- `ScreenBindings.get_bindings` (config.py), consumed as a list: for each stored
binding, build the key expression, split it on `","` and process each component. -/
def get_bindings (ctk : Char → String) (actions : ActionsMap) :
    List BindingTypeModel → Except ResolveErr (List Binding)
  | [] => .ok []
  | b :: rest =>
    match processComponents ctk actions b (splitOnChar ',' (joinKey b.key)) with
    | .error e => .error e
    | .ok xs =>
      match get_bindings ctk actions rest with
      | .error e => .error e
      | .ok ys => .ok (xs ++ ys)

/-- A node of the validated settings tree walked by `include_bindings`.
`model fields sb` is a pydantic model: `fields` is its `__pydantic_fields__`
(field name to child value), and `sb = some (actions, bindings)` exactly when
the node `isinstance`-checks as a `config.ScreenBindings` carrying that registry
and that (already validated) binding list. `value` is any Python value that is
not a pydantic model (a `str`, a `Path`, a list, ...): it has no
`__pydantic_fields__` attribute. -/
inductive SettingsNode where
  | model (fields : List (String × SettingsNode))
      (sb : Option (ActionsMap × List BindingTypeModel))
  | value

/-- The walk loop of `binding_loader.include_bindings`: while segments remain,
check `fields[0] not in tmp.__pydantic_fields__` (an `AttributeError` if the
current node is not a pydantic model; a soft `return []` if the segment is
missing) and step into the child. When the segments are exhausted, run
`get_bindings` if the node is a `ScreenBindings`, else return `[]`. -/
def resolveSegments (ctk : Char → String) :
    SettingsNode → List String → Except ResolveErr (List Binding)
  | .model _ (some (actions, bs)), [] => get_bindings ctk actions bs
  | .model _ none, [] => .ok []
  | .value, [] => .ok []
  | .value, _ :: _ => .error .attributeError
  | .model fields _, f :: rest =>
    match fields.lookup f with
    | none => .ok []
    | some child => resolveSegments ctk child rest

/-- `binding_loader.include_bindings`: split the dotted field path on `"."` and
walk the settings tree from the given root. -/
def include_bindings (ctk : Char → String) (root : SettingsNode) (field : String) :
    Except ResolveErr (List Binding) :=
  resolveSegments ctk root (splitOnChar '.' field)

/-- One row of the SQLite table
`Repositories(Path TEXT PRIMARY KEY NOT NULL UNIQUE, last_accessed INTEGER NOT NULL)`
created in `tui/app.py`. -/
structure Row where
  path : String
  last_accessed : Nat
deriving DecidableEq, Repr

/-- The filesystem and Git checks performed by `fetch_recent_repos`:
`Path.exists`, `Path.is_dir`, and whether `pygit2.repository.Repository(path)`
succeeds (does not raise `GitError`). External collaborators, embedded as
boolean oracles. -/
structure FS where
  path_exists : String → Bool
  is_dir : String → Bool
  repo_opens : String → Bool

/-- The descending order `ORDER BY last_accessed DESC` used by the listing query. -/
def recentOrder (a b : Row) : Prop := b.last_accessed ≤ a.last_accessed

instance : DecidableRel recentOrder := fun a b => Nat.decLe b.last_accessed a.last_accessed

instance : IsTotal Row recentOrder := ⟨fun a b => Nat.le_total b.last_accessed a.last_accessed⟩

instance : IsTrans Row recentOrder := ⟨fun _ _ _ h h' => Nat.le_trans h' h⟩

/-- The body of the `for repo in query.fetchall()` loop of
`RecentRepos.fetch_recent_repos`, threading the accumulated pair
(yielded paths, `to_rm`): a path that exists and is a directory is yielded if
the repository opens and collected into `to_rm` if opening raises `GitError`;
a path failing the existence or directory check is skipped entirely. -/
def fetchStep (fs : FS) (acc : List String × List String) (r : Row) :
    List String × List String :=
  if fs.path_exists r.path && fs.is_dir r.path then
    if fs.repo_opens r.path then (acc.1 ++ [r.path], acc.2)
    else (acc.1, acc.2 ++ [r.path])
  else acc

/-- Result of running the `fetch_recent_repos` generator to exhaustion: the
sequence of yielded paths and the state of the `Repositories` table after the
batched `DELETE`. -/
structure FetchResult where
  yielded : List String
  table : List Row
deriving DecidableEq, Repr

/-- `RecentRepos.fetch_recent_repos` (dashboard.py), run to exhaustion on a
given table state: select all rows ordered by `last_accessed` descending,
process each row with `fetchStep`, and afterwards (`if not to_rm: return`)
batch-delete the collected `to_rm` paths. -/
def fetch_recent_repos (fs : FS) (t : List Row) : FetchResult :=
  let rows := List.insertionSort recentOrder t
  let acc := rows.foldl (fetchStep fs) ([], [])
  if acc.2.isEmpty then ⟨acc.1, t⟩
  else ⟨acc.1, t.filter (fun r => !acc.2.contains r.path)⟩

/-- The SQL upsert executed by `DashboardScreen._open_repo_from_obj`:
`INSERT INTO Repositories(Path, last_accessed) VALUES (?, now)
ON CONFLICT(Path) DO UPDATE SET last_accessed=now`.
If a row with the path exists, its `last_accessed` is updated in place;
otherwise a fresh row is inserted. The `ON CONFLICT` clause means the statement
itself never raises a uniqueness-constraint error. -/
def record_opened (t : List Row) (p : String) (now : Nat) : List Row :=
  if t.any (fun r => r.path == p) then
    t.map (fun r => if r.path == p then ⟨r.path, now⟩ else r)
  else t ++ [⟨p, now⟩]

/-- Severity levels of `textual.app.App.notify`; the default severity is
`information`. -/
inductive Severity where
  | information
  | warning
  | error
deriving DecidableEq, Repr

/-- A call to `notify`: title (default empty), message, severity. -/
structure Notification where
  title : String
  message : String
  severity : Severity
deriving DecidableEq, Repr

/-- Outcome of the storage engine for the upsert inside
`_open_repo_from_obj`: success, `sqlite3.OperationalError`, or
`sqlite3.IntegrityError`. -/
inductive CacheResult where
  | ok
  | operationalError
  | integrityError
deriving DecidableEq, Repr

/-- Observable outcome of `DashboardScreen._open_repo_from_obj`: the table
state after the upsert attempt, the notifications emitted, and whether
`self.app.push_screen(WorkspaceScreen(repo))` ran. -/
structure OpenOutcome where
  table : List Row
  notes : List Notification
  pushed_workspace : Bool
deriving DecidableEq, Repr

/-- `DashboardScreen._open_repo_from_obj` (dashboard.py) after a successful
repository open: attempt the cache upsert; an `OperationalError` is downgraded
to a warning notification, an `IntegrityError` is swallowed silently, and in
every case the workspace screen for the opened repository is pushed. -/
def open_repo_from_obj (t : List Row) (repo_dir : String) (now : Nat) :
    CacheResult → OpenOutcome
  | .ok => ⟨record_opened t repo_dir now, [], true⟩
  | .operationalError =>
    ⟨t,
      [⟨"Failed to insert into cache",
        "Repository might not show up in recently opened list", .warning⟩],
      true⟩
  | .integrityError => ⟨t, [], true⟩

/-- How the awaited clone task of `CloneProgressModal.on_mount` terminates:
normally with a repository, with `asyncio.CancelledError` after the user
pressed the cancel button, or with `pygit2.GitError`. The repository handle is
opaque, embedded as a `Nat`. -/
inductive CloneTaskResult where
  | success (repo : Nat)
  | cancelled
  | gitError (msg : String)
deriving DecidableEq, Repr

/-- Observable outcome of `CloneProgressModal.on_mount`: the value passed to
`self.dismiss` (the repository on success, `None` otherwise) and the
notifications emitted. -/
structure CloneMountOutcome where
  dismissed : Option Nat
  notes : List Notification
deriving DecidableEq, Repr

/-- `CloneProgressModal.on_mount` (dashboard.py): await the clone task;
on `CancelledError` notify "Clone operation was cancelled." with severity
`warning` and set the result to `None`; on `GitError` notify with title
"Clone failed" and severity `error` and set the result to `None`; in the
`finally` block dismiss with the result. The caller `action_clone_repo`
checks `if not repo: return`, so a `None` result never opens a workspace. -/
def clone_progress_on_mount : CloneTaskResult → CloneMountOutcome
  | .success r => ⟨some r, []⟩
  | .cancelled => ⟨none, [⟨"", "Clone operation was cancelled.", .warning⟩]⟩
  | .gitError m => ⟨none, [⟨"Clone failed", m, .error⟩]⟩

/-- The dotted-path walks that the spec calls "a segment does not exist on the
current node" while every node reached before the missing segment is a pydantic
settings model: either the first segment is already missing from the current
model's fields, or it resolves to a child model in which the rest of the path
goes missing. -/
inductive MissingField : SettingsNode → List String → Prop where
  | here {fields : List (String × SettingsNode)}
      {sb : Option (ActionsMap × List BindingTypeModel)} {f : String} {rest : List String} :
      fields.lookup f = none → MissingField (.model fields sb) (f :: rest)
  | there {fields : List (String × SettingsNode)}
      {sb : Option (ActionsMap × List BindingTypeModel)} {f : String}
      {rest : List String} {child : SettingsNode} :
      fields.lookup f = some child → MissingField child rest →
      MissingField (.model fields sb) (f :: rest)

/-- The global actions registry `GlobalBindings._actions` from config.py. -/
def quitActions : ActionsMap := [("quit", "Quit the app")]

/-- The dashboard actions registry `DashboardSettings.Bindings._actions` from
config.py. -/
def dashActions : ActionsMap :=
  [("open_repo", "Open Repository"), ("clone_repo", "Clone Repository"),
    ("create_repo", "Create Repository")]

/-- Concrete filesystem oracle for witnesses: only `/a` exists, is a directory
and opens as a repository. -/
def fsOnlyA : FS := ⟨fun p => p == "/a", fun p => p == "/a", fun p => p == "/a"⟩

/-- Concrete filesystem oracle for witnesses: every path exists, is a directory
and opens as a repository. -/
def fsAll : FS := ⟨fun _ => true, fun _ => true, fun _ => true⟩

/-- Concrete table state for witnesses: `/a` accessed at 100, `/b` at 200. -/
def tableAB : List Row := [⟨"/a", 100⟩, ⟨"/b", 200⟩]

/-- Concrete table state for witnesses: `/repo1` accessed at 100, `/repo2` at
200. -/
def tableRepo12 : List Row := [⟨"/repo1", 100⟩, ⟨"/repo2", 200⟩]

/-- If every component of every spec survives the empty-after-strip check and the
offending list contains a component that strips to empty, `processComponents`
raises `InvalidBinding` carrying the spec's key expression. -/
theorem processComponents_err_invalid (ctk : Char → String) (actions : ActionsMap)
    (b : BindingTypeModel) :
    ∀ comps : List String,
      (comps.any fun k => pyStrip k == "") = true →
      (actions.lookup b.action).isSome = true →
      processComponents ctk actions b comps = .error (.invalidBinding (joinKey b.key)) := by
  intro comps
  induction comps with
  | nil => intro h _; simp at h
  | cons k rest ih =>
    intro hany hsome
    simp only [List.any_cons, Bool.or_eq_true, beq_iff_eq] at hany
    by_cases hk : pyStrip k = ""
    · simp [processComponents, hk]
    · obtain ⟨d, hd⟩ := Option.isSome_iff_exists.mp hsome
      have hrest : (rest.any fun k => pyStrip k == "") = true := by
        rcases hany with h | h
        · exact absurd h hk
        · exact h
      simp [processComponents, hk, hd, ih hrest hsome]

/-- A spec whose key components all strip to non-empty strings and whose action
is registered is processed without an exception. -/
theorem processComponents_ok_exists (ctk : Char → String) (actions : ActionsMap)
    (b : BindingTypeModel) :
    ∀ comps : List String,
      (∀ k ∈ comps, ¬ pyStrip k = "") →
      (actions.lookup b.action).isSome = true →
      ∃ xs, processComponents ctk actions b comps = .ok xs := by
  intro comps
  induction comps with
  | nil => intro _ _; exact ⟨[], rfl⟩
  | cons k rest ih =>
    intro hne hsome
    obtain ⟨d, hd⟩ := Option.isSome_iff_exists.mp hsome
    have hk : ¬ pyStrip k = "" := hne k (List.mem_cons_self k rest)
    obtain ⟨xs, hxs⟩ := ih (fun k' hk' => hne k' (List.mem_cons_of_mem k hk')) hsome
    exact ⟨⟨expandKey ctk (pyStrip k), b.action, d, b.show_⟩ :: xs,
      by simp [processComponents, hk, hd, hxs]⟩

/-- A binding list in which every action is registered and some spec has a key
component stripping to empty resolves to the `InvalidBinding` error. -/
theorem get_bindings_err_of_empty_key (ctk : Char → String) (actions : ActionsMap) :
    ∀ bs : List BindingTypeModel,
      (∀ b ∈ bs, (actions.lookup b.action).isSome = true) →
      (∃ b ∈ bs, ((splitOnChar ',' (joinKey b.key)).any fun k => pyStrip k == "") = true) →
      ∃ key, get_bindings ctk actions bs = .error (.invalidBinding key) := by
  intro bs
  induction bs with
  | nil => intro _ h; simp at h
  | cons b rest ih =>
    intro hval hbad
    have hsome := hval b (List.mem_cons_self b rest)
    by_cases hb : ((splitOnChar ',' (joinKey b.key)).any fun k => pyStrip k == "") = true
    · exact ⟨joinKey b.key, by
        simp [get_bindings, processComponents_err_invalid ctk actions b _ hb hsome]⟩
    · have hok : ∀ k ∈ splitOnChar ',' (joinKey b.key), ¬ pyStrip k = "" := by
        intro k hk hke
        exact hb (List.any_eq_true.mpr ⟨k, hk, by simp [hke]⟩)
      obtain ⟨xs, hxs⟩ := processComponents_ok_exists ctk actions b _ hok hsome
      have hbadrest : ∃ b ∈ rest,
          ((splitOnChar ',' (joinKey b.key)).any fun k => pyStrip k == "") = true := by
        obtain ⟨b', hb', hbb⟩ := hbad
        rcases List.mem_cons.mp hb' with h | h
        · exact absurd (h ▸ hbb) hb
        · exact ⟨b', h, hbb⟩
      obtain ⟨key, hkey⟩ := ih (fun b' h => hval b' (List.mem_cons_of_mem b h)) hbadrest
      exact ⟨key, by simp [get_bindings, hxs, hkey]⟩

/-- Every binding emitted by a successful `processComponents` run carries an
action that is present in the registry (it was looked up to build the
description). -/
theorem processComponents_ok_actions (ctk : Char → String) (actions : ActionsMap)
    (b : BindingTypeModel) :
    ∀ (comps : List String) (xs : List Binding),
      processComponents ctk actions b comps = .ok xs →
      ∀ x ∈ xs, (actions.lookup x.action).isSome = true := by
  intro comps
  induction comps with
  | nil =>
    intro xs h x hx
    simp only [processComponents] at h
    cases h
    simp at hx
  | cons k rest ih =>
    intro xs h x hx
    by_cases hk : pyStrip k = ""
    · simp [processComponents, hk] at h
    · cases hd : actions.lookup b.action with
      | none => simp [processComponents, hk, hd] at h
      | some d =>
        cases hrec : processComponents ctk actions b rest with
        | error e => simp [processComponents, hk, hd, hrec] at h
        | ok ys =>
          simp only [processComponents, hk, hd, hrec, if_neg hk] at h
          cases h
          rcases List.mem_cons.mp hx with h | h
          · subst h; simp [hd]
          · exact ih ys hrec x h

/-- Every binding in a successful `get_bindings` result has an action present in
the registry. -/
theorem get_bindings_ok_actions (ctk : Char → String) (actions : ActionsMap) :
    ∀ (bs : List BindingTypeModel) (res : List Binding),
      get_bindings ctk actions bs = .ok res →
      ∀ x ∈ res, (actions.lookup x.action).isSome = true := by
  intro bs
  induction bs with
  | nil =>
    intro res h x hx
    simp only [get_bindings] at h
    cases h
    simp at hx
  | cons b rest ih =>
    intro res h x hx
    cases hpc : processComponents ctk actions b (splitOnChar ',' (joinKey b.key)) with
    | error e => simp [get_bindings, hpc] at h
    | ok xs =>
      cases hgb : get_bindings ctk actions rest with
      | error e => simp [get_bindings, hpc, hgb] at h
      | ok ys =>
        simp only [get_bindings, hpc, hgb] at h
        cases h
        rcases List.mem_append.mp hx with h | h
        · exact processComponents_ok_actions ctk actions b _ xs hpc x h
        · exact ih ys hgb x h

/-- When the spec's action is registered, `processComponents` never raises the
`KeyError` of the description lookup. -/
theorem processComponents_no_keyError (ctk : Char → String) (actions : ActionsMap)
    (b : BindingTypeModel) :
    ∀ (comps : List String) (a : String),
      (actions.lookup b.action).isSome = true →
      processComponents ctk actions b comps ≠ .error (.keyError a) := by
  intro comps
  induction comps with
  | nil => intro a _ h; simp [processComponents] at h
  | cons k rest ih =>
    intro a hsome h
    obtain ⟨d, hd⟩ := Option.isSome_iff_exists.mp hsome
    by_cases hk : pyStrip k = ""
    · simp [processComponents, hk] at h
    · cases hrec : processComponents ctk actions b rest with
      | error e =>
        simp only [processComponents, hk, hd, hrec, if_neg hk] at h
        cases h
        exact ih a hsome hrec
      | ok ys => simp [processComponents, hk, hd, hrec] at h

/-- When every action in a binding list is registered, `get_bindings` never
raises `KeyError`. -/
theorem get_bindings_no_keyError (ctk : Char → String) (actions : ActionsMap) :
    ∀ (bs : List BindingTypeModel) (a : String),
      (∀ b ∈ bs, (actions.lookup b.action).isSome = true) →
      get_bindings ctk actions bs ≠ .error (.keyError a) := by
  intro bs
  induction bs with
  | nil => intro a _ h; simp [get_bindings] at h
  | cons b rest ih =>
    intro a hval h
    cases hpc : processComponents ctk actions b (splitOnChar ',' (joinKey b.key)) with
    | error e =>
      simp only [get_bindings, hpc] at h
      cases h
      exact processComponents_no_keyError ctk actions b _ a
        (hval b (List.mem_cons_self b rest)) hpc
    | ok xs =>
      cases hgb : get_bindings ctk actions rest with
      | error e =>
        simp only [get_bindings, hpc, hgb] at h
        cases h
        exact ih a (fun b' h' => hval b' (List.mem_cons_of_mem b h')) hgb
      | ok ys => simp [get_bindings, hpc, hgb] at h

/-- The updated row of a `record_opened` map step keeps its path. -/
theorem path_update_eq (p : String) (now : Nat) (r : Row) :
    (if r.path == p then Row.mk r.path now else r).path = r.path := by
  by_cases h : r.path == p <;> simp [h]

/-- In a table with pairwise-distinct paths that contains at least one row for
`p`, exactly one row has path `p`. -/
theorem countP_path_eq_one (p : String) :
    ∀ t : List Row, t.Pairwise (fun a b => a.path ≠ b.path) →
      (t.any fun r => r.path == p) = true →
      (t.countP fun r => r.path == p) = 1 := by
  intro t
  induction t with
  | nil => intro _ h; simp at h
  | cons a l ih =>
    intro hp hany
    have hpl := List.pairwise_cons.mp hp
    by_cases ha : a.path = p
    · have hl0 : (l.countP fun r => r.path == p) = 0 := by
        apply List.countP_eq_zero.mpr
        intro r hr
        have hne : a.path ≠ r.path := hpl.1 r hr
        simp only [beq_iff_eq]
        intro hrp
        exact hne (ha.trans hrp.symm)
      simp [List.countP_cons, ha, hl0]
    · have hl : (l.any fun r => r.path == p) = true := by
        simp only [List.any_cons, Bool.or_eq_true, beq_iff_eq] at hany
        rcases hany with h | h
        · exact absurd h ha
        · exact h
      simp [List.countP_cons, ha, ih hpl.2 hl]

/-- The `ON CONFLICT ... DO UPDATE` map step does not change how many rows match
a path. -/
theorem countP_update_map (t : List Row) (p : String) (now : Nat) :
    ((t.map fun r => if r.path == p then Row.mk r.path now else r).countP
        fun r => r.path == p)
      = t.countP fun r => r.path == p := by
  induction t with
  | nil => rfl
  | cons a l ih =>
    simp only [List.map_cons, List.countP_cons, ih]
    by_cases h : a.path = p
    · simp [h]
    · simp [h]

/-- After `record_opened t p now` the table contains a row for `p`. -/
theorem record_opened_any (t : List Row) (p : String) (now : Nat) :
    ((record_opened t p now).any fun r => r.path == p) = true := by
  by_cases h : (t.any fun r => r.path == p) = true
  · simp only [record_opened, h, if_true]
    rcases List.any_eq_true.mp h with ⟨r, hr, hrp⟩
    apply List.any_eq_true.mpr
    refine ⟨if r.path == p then Row.mk r.path now else r, List.mem_map.mpr ⟨r, hr, rfl⟩, ?_⟩
    rw [if_pos hrp]
    exact hrp
  · have h' : (t.any fun r => r.path == p) = false := by simpa using h
    simp [record_opened, h']

/-- The upsert preserves the primary-key invariant: pairwise-distinct paths. -/
theorem record_opened_pairwise (t : List Row) (p : String) (now : Nat)
    (huniq : t.Pairwise fun a b => a.path ≠ b.path) :
    (record_opened t p now).Pairwise fun a b => a.path ≠ b.path := by
  by_cases h : (t.any fun r => r.path == p) = true
  · simp only [record_opened, h, if_true]
    rw [List.pairwise_map]
    apply List.Pairwise.imp ?_ huniq
    intro a b hne
    simpa only [path_update_eq] using hne
  · have h' : (t.any fun r => r.path == p) = false := by simpa using h
    have hall := List.any_eq_false.mp h'
    simp only [record_opened, h']
    simp only [Bool.false_eq_true, if_false]
    rw [List.pairwise_append]
    refine ⟨huniq, List.pairwise_singleton _ _, ?_⟩
    intro a ha b hb
    rw [List.mem_singleton.mp hb]
    have := hall a ha
    simp only [beq_iff_eq] at this
    simpa using this

/-- After `record_opened t p now`, every row whose path is `p` carries
`last_accessed = now`. -/
theorem record_opened_rows_updated (t : List Row) (p : String) (now : Nat) :
    ∀ r ∈ record_opened t p now, r.path = p → r.last_accessed = now := by
  intro r hr hrp
  by_cases h : (t.any fun r => r.path == p) = true
  · simp only [record_opened, h, if_true] at hr
    obtain ⟨r₀, _, hfr⟩ := List.mem_map.mp hr
    by_cases h₀ : r₀.path == p
    · rw [if_pos h₀] at hfr
      rw [← hfr]
    · rw [if_neg h₀] at hfr
      subst hfr
      exact absurd hrp (by simpa using h₀)
  · have h' : (t.any fun r => r.path == p) = false := by simpa using h
    have hall := List.any_eq_false.mp h'
    simp only [record_opened, h', Bool.false_eq_true, if_false] at hr
    rcases List.mem_append.mp hr with h'' | h''
    · have := hall r h''
      simp only [beq_iff_eq] at this
      exact absurd hrp (by simpa using this)
    · rw [List.mem_singleton.mp h'']

/-- A path appearing in the yielded component after one `fetchStep` was already
there or passed the existence check. -/
theorem fetchStep_mem_fst (fs : FS) (acc : List String × List String) (r : Row)
    (p : String) (h : p ∈ (fetchStep fs acc r).1) :
    p ∈ acc.1 ∨ fs.path_exists p = true := by
  unfold fetchStep at h
  by_cases hc : (fs.path_exists r.path && fs.is_dir r.path) = true
  · rw [if_pos hc] at h
    by_cases hro : fs.repo_opens r.path = true
    · rw [if_pos hro] at h
      rcases List.mem_append.mp h with h' | h'
      · exact Or.inl h'
      · have hp : p = r.path := List.mem_singleton.mp h'
        have hcc : fs.path_exists r.path = true ∧ fs.is_dir r.path = true := by
          simpa [Bool.and_eq_true] using hc
        exact Or.inr (hp ▸ hcc.1)
    · rw [if_neg hro] at h
      exact Or.inl h
  · rw [if_neg hc] at h
    exact Or.inl h

/-- A path appearing in the `to_rm` component after one `fetchStep` was already
there or passed the existence check. -/
theorem fetchStep_mem_snd (fs : FS) (acc : List String × List String) (r : Row)
    (p : String) (h : p ∈ (fetchStep fs acc r).2) :
    p ∈ acc.2 ∨ fs.path_exists p = true := by
  unfold fetchStep at h
  by_cases hc : (fs.path_exists r.path && fs.is_dir r.path) = true
  · rw [if_pos hc] at h
    by_cases hro : fs.repo_opens r.path = true
    · rw [if_pos hro] at h
      exact Or.inl h
    · rw [if_neg hro] at h
      rcases List.mem_append.mp h with h' | h'
      · exact Or.inl h'
      · have hp : p = r.path := List.mem_singleton.mp h'
        have hcc : fs.path_exists r.path = true ∧ fs.is_dir r.path = true := by
          simpa [Bool.and_eq_true] using hc
        exact Or.inr (hp ▸ hcc.1)
  · rw [if_neg hc] at h
    exact Or.inl h

/-- Paths yielded by the listing loop come from the accumulator or pass the
existence check. -/
theorem foldl_fetchStep_mem_fst (fs : FS) (p : String) :
    ∀ (rows : List Row) (acc : List String × List String),
      p ∈ (rows.foldl (fetchStep fs) acc).1 → p ∈ acc.1 ∨ fs.path_exists p = true := by
  intro rows
  induction rows with
  | nil => exact fun acc h => Or.inl h
  | cons r rest ih =>
    intro acc h
    rcases ih (fetchStep fs acc r) h with h' | h'
    · exact fetchStep_mem_fst fs acc r p h'
    · exact Or.inr h'

/-- Paths collected into `to_rm` by the listing loop come from the accumulator
or pass the existence check. -/
theorem foldl_fetchStep_mem_snd (fs : FS) (p : String) :
    ∀ (rows : List Row) (acc : List String × List String),
      p ∈ (rows.foldl (fetchStep fs) acc).2 → p ∈ acc.2 ∨ fs.path_exists p = true := by
  intro rows
  induction rows with
  | nil => exact fun acc h => Or.inl h
  | cons r rest ih =>
    intro acc h
    rcases ih (fetchStep fs acc r) h with h' | h'
    · exact fetchStep_mem_snd fs acc r p h'
    · exact Or.inr h'

/-- When every row passes all three checks, the listing loop yields every path
in order and collects nothing for deletion. -/
theorem foldl_fetchStep_all_valid (fs : FS) :
    ∀ (rows : List Row) (acc : List String × List String),
      (∀ r ∈ rows, fs.path_exists r.path = true ∧ fs.is_dir r.path = true ∧
        fs.repo_opens r.path = true) →
      rows.foldl (fetchStep fs) acc = (acc.1 ++ rows.map Row.path, acc.2) := by
  intro rows
  induction rows with
  | nil => intro acc _; simp
  | cons r rest ih =>
    intro acc hv
    obtain ⟨h1, h2, h3⟩ := hv r (List.mem_cons_self r rest)
    have hstep : fetchStep fs acc r = (acc.1 ++ [r.path], acc.2) := by
      simp [fetchStep, h1, h2, h3]
    rw [List.foldl_cons, hstep, ih _ fun r' h => hv r' (List.mem_cons_of_mem r h)]
    simp

/-- C1, counterexample: with `/a` valid and `/b` nonexistent, listing excludes
`/b` from the yielded sequence, yet the `/b` row is still present in storage
after the listing completes — the claimed deletion does not happen, because
`fetch_recent_repos` only collects into `to_rm` paths that exist as directories
but fail to open as repositories. -/
theorem c1_nonexistent_path_not_deleted_counterexample :
    (fetch_recent_repos fsOnlyA tableAB).yielded = ["/a"]
    ∧ fsOnlyA.path_exists "/b" = false
    ∧ (fetch_recent_repos fsOnlyA tableAB).table.contains ⟨"/b", 200⟩ = true :=
  ⟨rfl, rfl, rfl⟩

/-- C1, amended: if a cached path no longer exists on the filesystem, listing
the recent repositories excludes it from the produced sequence, but the path is
not deleted from the storage table — its row is still present after the listing
completes. -/
theorem c1_nonexistent_path_excluded_but_kept (fs : FS) (t : List Row) (p : String)
    (hex : fs.path_exists p = false) :
    p ∉ (fetch_recent_repos fs t).yielded
    ∧ ∀ r ∈ t, r.path = p → r ∈ (fetch_recent_repos fs t).table := by
  constructor
  · intro hmem
    simp only [fetch_recent_repos] at hmem
    have hy : p ∈ ((List.insertionSort recentOrder t).foldl (fetchStep fs) ([], [])).1 := by
      split at hmem <;> exact hmem
    rcases foldl_fetchStep_mem_fst fs p (List.insertionSort recentOrder t) ([], []) hy with h | h
    · simp at h
    · rw [hex] at h
      cases h
  · intro r hr hrp
    simp only [fetch_recent_repos]
    split
    · exact hr
    · apply List.mem_filter.mpr
      refine ⟨hr, ?_⟩
      rw [Bool.not_eq_eq_eq_not]
      simp only [Bool.not_true]
      by_contra hcon
      have hcon' : (((List.insertionSort recentOrder t).foldl
          (fetchStep fs) ([], [])).2.contains r.path) = true := by
        revert hcon
        cases ((List.insertionSort recentOrder t).foldl (fetchStep fs) ([], [])).2.contains r.path <;>
          simp
      have hmem2 : r.path ∈ ((List.insertionSort recentOrder t).foldl
          (fetchStep fs) ([], [])).2 := by
        obtain ⟨a, ha, hba⟩ := List.contains_iff_exists_mem_beq.mp hcon'
        exact (beq_iff_eq.mp hba) ▸ ha
      rcases foldl_fetchStep_mem_snd fs r.path (List.insertionSort recentOrder t) ([], []) hmem2 with h | h
      · simp at h
      · rw [hrp, hex] at h
        cases h

/-- C1 witness at the spec's own example: `/b` does not exist, is excluded from
the listing, and its row survives in storage. -/
theorem c1_nonexistent_path_excluded_but_kept_witness :
    "/b" ∉ (fetch_recent_repos fsOnlyA tableAB).yielded
    ∧ ∀ r ∈ tableAB, r.path = "/b" → r ∈ (fetch_recent_repos fsOnlyA tableAB).table :=
  c1_nonexistent_path_excluded_but_kept fsOnlyA tableAB "/b" rfl

/-- C2, counterexample: on a settings tree whose field `x` is a plain value
(not a pydantic model), resolving the path `x.y` — whose segment `y` does not
name a field of the node reached — raises `AttributeError` instead of returning
the empty sequence, because the walk reads `__pydantic_fields__` off a
non-model value. -/
theorem c2_nonmodel_node_raises_counterexample :
    include_bindings character_to_key (.model [("x", .value)] none) "x.y" =
      .error .attributeError
    ∧ include_bindings character_to_key (.model [("x", .value)] none) "x.y" ≠ .ok [] :=
  ⟨rfl, fun h => nomatch h⟩

/-- C2, amended: for every dotted field path such that some segment does not
name a field of the settings node reached by the preceding segments, and every
node reached before the missing segment is a pydantic settings model, binding
resolution returns the empty sequence and raises no exception. -/
theorem c2_missing_segment_empty_bindings (ctk : Char → String) {node : SettingsNode}
    {segs : List String} (h : MissingField node segs) :
    resolveSegments ctk node segs = .ok [] := by
  induction h with
  | here hf => simp [resolveSegments, hf]
  | there hf _ ih => simp [resolveSegments, hf, ih]

/-- C2 witness: a missing first segment on a model node resolves to the empty
binding list. -/
theorem c2_missing_segment_empty_bindings_witness :
    resolveSegments character_to_key (.model [("a", .value)] none) ["b"] = .ok [] :=
  c2_missing_segment_empty_bindings character_to_key (MissingField.here rfl)

/-- C3: for every binding set (as stored in a validated `ScreenBindings`, i.e.
after `validate_bindings`) containing a spec whose key is the empty string or
normalizes to empty after trimming, resolution raises the fatal
`InvalidBinding` error and the caller receives no (partial) list. -/
theorem c3_empty_key_raises_invalid_binding (ctk : Char → String)
    (actions : ActionsMap) (bs : List BindingTypeModel)
    (hbad : ∃ b ∈ validate_bindings actions bs,
        ((splitOnChar ',' (joinKey b.key)).any fun k => pyStrip k == "") = true) :
    (∃ key, get_bindings ctk actions (validate_bindings actions bs) =
        .error (.invalidBinding key))
    ∧ ∀ l, get_bindings ctk actions (validate_bindings actions bs) ≠ .ok l := by
  have hval : ∀ b ∈ validate_bindings actions bs, (actions.lookup b.action).isSome = true :=
    fun b hb => (List.mem_filter.mp hb).2
  obtain ⟨key, hkey⟩ := get_bindings_err_of_empty_key ctk actions _ hval hbad
  refine ⟨⟨key, hkey⟩, fun l h => ?_⟩
  rw [hkey] at h
  cases h

/-- C3 witness: the global registry with a single empty-key `quit` spec errors
with `InvalidBinding` and returns no list. -/
theorem c3_empty_key_raises_invalid_binding_witness :
    (∃ key, get_bindings character_to_key quitActions
        (validate_bindings quitActions [⟨.single "", "quit", true⟩]) =
        .error (.invalidBinding key))
    ∧ ∀ l, get_bindings character_to_key quitActions
        (validate_bindings quitActions [⟨.single "", "quit", true⟩]) ≠ .ok l :=
  c3_empty_key_raises_invalid_binding character_to_key quitActions
    [⟨.single "", "quit", true⟩] (by decide)

/-- C4: a spec whose key is the 2-element alternative set `("q", "ctrl+c")`
with a registered action resolves to exactly two bindings, with keys `"q"` and
`"ctrl+c"` respectively, sharing the same action, the registry's description
and the same show flag — both as the yield of that one spec and as the result
of resolving the singleton set. -/
theorem c4_pair_key_yields_two_bindings (actions : ActionsMap) (a d : String)
    (s : Bool) (h : actions.lookup a = some d) :
    processComponents character_to_key actions ⟨.pair "q" "ctrl+c", a, s⟩
        (splitOnChar ',' (joinKey (.pair "q" "ctrl+c"))) =
      .ok [⟨"q", a, d, s⟩, ⟨"ctrl+c", a, d, s⟩]
    ∧ get_bindings character_to_key actions [⟨.pair "q" "ctrl+c", a, s⟩] =
      .ok [⟨"q", a, d, s⟩, ⟨"ctrl+c", a, d, s⟩] := by
  have h1 : splitOnChar ',' (joinKey (.pair "q" "ctrl+c")) = ["q", "ctrl+c"] := rfl
  have h2 : pyStrip "q" = "q" := rfl
  have h3 : pyStrip "ctrl+c" = "ctrl+c" := rfl
  have h4 : expandKey character_to_key "q" = "q" := rfl
  have h5 : expandKey character_to_key "ctrl+c" = "ctrl+c" := rfl
  constructor
  · simp [processComponents, h1, h2, h3, h4, h5, h]
  · simp [get_bindings, processComponents, h1, h2, h3, h4, h5, h]

/-- C4 witness: the global `quit` binding of config.py, whose key is
`("q", "ctrl+c")`, resolves to exactly the two expected bindings. -/
theorem c4_pair_key_yields_two_bindings_witness :
    processComponents character_to_key quitActions ⟨.pair "q" "ctrl+c", "quit", true⟩
        (splitOnChar ',' (joinKey (.pair "q" "ctrl+c"))) =
      .ok [⟨"q", "quit", "Quit the app", true⟩, ⟨"ctrl+c", "quit", "Quit the app", true⟩]
    ∧ get_bindings character_to_key quitActions [⟨.pair "q" "ctrl+c", "quit", true⟩] =
      .ok [⟨"q", "quit", "Quit the app", true⟩, ⟨"ctrl+c", "quit", "Quit the app", true⟩] :=
  c4_pair_key_yields_two_bindings quitActions "quit" "Quit the app" true rfl

/-- C5: validation drops every spec whose action has no registry entry, and the
actions of any successfully resolved output always have registry entries (the
output's action set is a subset of the registry's keys). -/
theorem c5_unknown_action_dropped (ctk : Char → String) (actions : ActionsMap)
    (bs : List BindingTypeModel) :
    (∀ b ∈ bs, actions.lookup b.action = none → b ∉ validate_bindings actions bs)
    ∧ ∀ res, get_bindings ctk actions (validate_bindings actions bs) = .ok res →
        ∀ x ∈ res, (actions.lookup x.action).isSome = true := by
  constructor
  · intro b _ hnone hmem
    have h := (List.mem_filter.mp hmem).2
    rw [hnone] at h
    cases h
  · intro res h
    exact get_bindings_ok_actions ctk actions _ res h

/-- C6: starting from a table with pairwise-distinct paths (the primary-key
invariant), two successive `record_opened` upserts of the same path leave
exactly one row for that path, with `last_accessed` equal to the second call's
timestamp; the upsert is total — the `ON CONFLICT` clause takes the update
branch instead of raising a uniqueness-constraint error. -/
theorem c6_record_opened_twice_upsert (t : List Row) (p : String) (t1 t2 : Nat)
    (huniq : t.Pairwise fun a b => a.path ≠ b.path) :
    ((record_opened (record_opened t p t1) p t2).countP fun r => r.path == p) = 1
    ∧ ∀ r ∈ record_opened (record_opened t p t1) p t2, r.path = p →
        r.last_accessed = t2 := by
  have hpw := record_opened_pairwise t p t1 huniq
  have hany := record_opened_any t p t1
  constructor
  · obtain ⟨t₁, ht₁⟩ : ∃ t₁, record_opened t p t1 = t₁ := ⟨_, rfl⟩
    rw [ht₁] at hpw hany ⊢
    simp only [record_opened, hany, if_true]
    rw [countP_update_map]
    exact countP_path_eq_one p _ hpw hany
  · exact record_opened_rows_updated _ p t2

/-- C6 witness: opening `/a` at time 10 then again at time 20 on a table that
already holds `/x` leaves exactly one `/a` row, stamped 20. -/
theorem c6_record_opened_twice_upsert_witness :
    ((record_opened (record_opened [⟨"/x", 5⟩] "/a" 10) "/a" 20).countP
        fun r => r.path == "/a") = 1
    ∧ ∀ r ∈ record_opened (record_opened [⟨"/x", 5⟩] "/a" 10) "/a" 20,
        r.path = "/a" → r.last_accessed = 20 :=
  c6_record_opened_twice_upsert [⟨"/x", 5⟩] "/a" 10 20 (by decide)

/-- C7: when every stored path passes all validity checks, the listing yields
exactly the stored paths reordered by `last_accessed` descending (a sorted
permutation of the table) and deletes nothing. -/
theorem c7_list_recent_desc_order (fs : FS) (t : List Row)
    (hvalid : ∀ r ∈ t, fs.path_exists r.path = true ∧ fs.is_dir r.path = true ∧
      fs.repo_opens r.path = true) :
    (List.insertionSort recentOrder t).Perm t
    ∧ List.Sorted recentOrder (List.insertionSort recentOrder t)
    ∧ (fetch_recent_repos fs t).yielded = (List.insertionSort recentOrder t).map Row.path
    ∧ (fetch_recent_repos fs t).table = t := by
  have hmem : ∀ r ∈ List.insertionSort recentOrder t, fs.path_exists r.path = true ∧
      fs.is_dir r.path = true ∧ fs.repo_opens r.path = true := by
    intro r h
    exact hvalid r ((List.mem_insertionSort recentOrder).mp h)
  have hfold := foldl_fetchStep_all_valid fs (List.insertionSort recentOrder t) ([], []) hmem
  refine ⟨List.perm_insertionSort recentOrder t, List.sorted_insertionSort recentOrder t, ?_, ?_⟩
  · simp [fetch_recent_repos, hfold]
  · simp [fetch_recent_repos, hfold]

/-- C7 witness at the spec's own example: `/repo1` at 100 and `/repo2` at 200
list as `["/repo2", "/repo1"]`. -/
theorem c7_list_recent_desc_order_witness :
    ((List.insertionSort recentOrder tableRepo12).Perm tableRepo12
      ∧ List.Sorted recentOrder (List.insertionSort recentOrder tableRepo12)
      ∧ (fetch_recent_repos fsAll tableRepo12).yielded =
          (List.insertionSort recentOrder tableRepo12).map Row.path
      ∧ (fetch_recent_repos fsAll tableRepo12).table = tableRepo12)
    ∧ (fetch_recent_repos fsAll tableRepo12).yielded = ["/repo2", "/repo1"] :=
  ⟨c7_list_recent_desc_order fsAll tableRepo12 (by decide), rfl⟩

/-- C8: when the cache upsert after a successful open fails with
`sqlite3.OperationalError`, the failure is reported only as the single warning
notification, the table is unchanged, and for every storage outcome the
workspace screen for the opened repository is pushed regardless. -/
theorem c8_upsert_failure_warning_still_opens (t : List Row) (p : String) (now : Nat) :
    (open_repo_from_obj t p now .operationalError).notes =
      [⟨"Failed to insert into cache",
        "Repository might not show up in recently opened list", Severity.warning⟩]
    ∧ (open_repo_from_obj t p now .operationalError).table = t
    ∧ ∀ res, (open_repo_from_obj t p now res).pushed_workspace = true := by
  refine ⟨rfl, rfl, fun res => ?_⟩
  cases res <;> rfl

/-- C9, counterexample: the cancellation notice of `CloneProgressModal.on_mount`
is emitted with severity `warning`, not as an informational notice — refuting
the claim's "as an informational notice" at the cancelled outcome. -/
theorem c9_cancel_notice_severity_counterexample :
    (clone_progress_on_mount .cancelled).notes.map (fun n => n.severity) =
      [Severity.warning]
    ∧ Severity.warning ≠ Severity.information :=
  ⟨rfl, by decide⟩

/-- C9, amended: cancellation of a clone in progress is a terminal outcome
distinct from success and from failure — the dismissed value is `None` (so the
partial state is never treated as success), the single notification is the
dedicated cancellation message with severity `warning` rather than `error`, and
the observable outcome differs from every success and every failure outcome. -/
theorem c9_cancel_distinct_terminal :
    (clone_progress_on_mount .cancelled).dismissed = none
    ∧ (clone_progress_on_mount .cancelled).notes =
        [⟨"", "Clone operation was cancelled.", Severity.warning⟩]
    ∧ Severity.warning ≠ Severity.error
    ∧ (∀ r, clone_progress_on_mount (.success r) ≠ clone_progress_on_mount .cancelled)
    ∧ ∀ m, clone_progress_on_mount (.gitError m) ≠ clone_progress_on_mount .cancelled := by
  refine ⟨rfl, rfl, by decide, fun r h => ?_, fun m h => ?_⟩
  · exact Option.noConfusion (congrArg CloneMountOutcome.dismissed h)
  · have h' := congrArg CloneMountOutcome.notes h
    simp [clone_progress_on_mount] at h'

/-- C10: after model validation (`validate_bindings`), every contained binding's
action is a key of the screen's actions registry, and consequently the
description lookup in `get_bindings` can never raise `KeyError` on a validated
set. -/
theorem c10_validated_actions_lookup_total (ctk : Char → String)
    (actions : ActionsMap) (bs : List BindingTypeModel) :
    (∀ b ∈ validate_bindings actions bs, (actions.lookup b.action).isSome = true)
    ∧ ∀ a, get_bindings ctk actions (validate_bindings actions bs) ≠
        .error (.keyError a) :=
  ⟨fun _ hb => (List.mem_filter.mp hb).2,
    fun a => get_bindings_no_keyError ctk actions _ a
      fun _ hb => (List.mem_filter.mp hb).2⟩
